import Mathlib

/-!  Verification of the dining-hall meal-plan generator
     (generate_mealplan.py) against its specification.

     The Python data and control flow is shallowly embedded: JSON
     records become structures with `Option` fields, floats become
     rationals, and the one unbounded `while` loop of `build_plan`
     becomes a fuel-indexed function that returns `none` exactly when
     the Python loop would spin forever (the inner scan over the
     sorted sequence finds no unused item while the stop condition of
     the slot is still unmet).  -/

/-- A menu item: a display name and a calorie estimate.
    Python numbers are modelled as rationals. -/
structure MenuItem where
  name : String
  calories : ℚ
deriving DecidableEq

/-- The hard-coded `ALWAYS_AVAILABLE` list (lines 19-28 of the source). -/
def ALWAYS_AVAILABLE : List MenuItem :=
  [⟨"Salad bar", 300⟩, ⟨"Deli sandwich", 600⟩, ⟨"Yogurt", 150⟩,
   ⟨"Pizza", 350⟩, ⟨"Chicken tenders", 400⟩, ⟨"French fries", 300⟩,
   ⟨"Grilled chicken", 250⟩, ⟨"Pasta with sauce", 500⟩]

/-- The ordering used by `sorted(items, key=lambda x: x["calories"], reverse=True)`:
    `a` may precede `b` iff the calories of `b` do not exceed those of `a`. -/
def calGE (a b : MenuItem) : Prop := b.calories ≤ a.calories

instance : DecidableRel calGE :=
  fun a b => inferInstanceAs (Decidable (b.calories ≤ a.calories))

instance : IsTotal MenuItem calGE := ⟨fun a b => le_total b.calories a.calories⟩

instance : IsTrans MenuItem calGE := ⟨fun _ _ _ h1 h2 => le_trans h2 h1⟩

/-- Lines 81-83 of `build_plan`: append the always-available catalog after the
    extracted items, then stable-sort by calories descending (Python sorting is
    stable; `List.insertionSort` is the stable sort with this ordering). -/
def items_sorted (items : List MenuItem) : List MenuItem :=
  List.insertionSort calGE (items ++ ALWAYS_AVAILABLE)

/-- The inner `for it in items_sorted: if it["name"] in used: continue ... break`
    scan (lines 91-96): the first item of the list whose name is not used yet. -/
def findUnused (used : List String) : List MenuItem → Option MenuItem
  | [] => none
  | it :: rest => if it.name ∈ used then findUnused used rest else some it

/-- One per-meal fill loop of `build_plan` (lines 89-96):
    `while meal_total < 1200 and len(slot) < 6`, each iteration appending the
    first unused item of the sorted sequence.  The Python loop has no
    exhaustion cap: when the scan finds no unused item the loop would run
    forever, which this embedding signals by `none`.  The fuel counts loop
    iterations; since each productive iteration grows the slot and the guard
    stops at six items, fuel `6` is exact for a slot that starts empty. -/
def fillSlot (S : List MenuItem) : Nat → List MenuItem → List String → ℚ →
    Option (List MenuItem × List String)
  | 0, slot, used, total =>
    if total < 1200 ∧ slot.length < 6 then none else some (slot, used)
  | n + 1, slot, used, total =>
    if total < 1200 ∧ slot.length < 6 then
      match findUnused used S with
      | none => none
      | some it =>
        fillSlot S n (slot ++ [it]) (it.name :: used) (total + it.calories)
    else some (slot, used)

/-- The result of `build_plan`: the dictionary
    `{"Breakfast": [...], "Dinner": [...]}`, slots in insertion order. -/
structure Plan where
  Breakfast : List MenuItem
  Dinner : List MenuItem
deriving DecidableEq

/-- `build_plan` (lines 79-97): the Breakfast slot is filled first starting
    from an empty used-set, then the Dinner slot is filled with the used-set
    carried over.  `none` means the Python loop diverges. -/
def build_plan (items : List MenuItem) : Option Plan :=
  match fillSlot (items_sorted items) 6 [] [] 0 with
  | none => none
  | some (b, used1) =>
    match fillSlot (items_sorted items) 6 [] used1 0 with
    | none => none
    | some (d, _) => some ⟨b, d⟩

/-- The pre-filter of the optimized selection described in the design notes of
    the spec: keep only the first item carrying each name.  On the sorted
    sequence this keeps, for every name, its highest-calorie occurrence. -/
def dedupByName (seen : List String) : List MenuItem → List MenuItem
  | [] => []
  | x :: xs =>
    if x.name ∈ seen then dedupByName seen xs
    else x :: dedupByName (x.name :: seen) xs

/-- The single-pass slot fill of the optimized selection from the spec:
    walk the pre-filtered sequence once, taking items from the front while the
    running total is below 1200 and the slot holds fewer than six items.
    Returns the slot together with the unconsumed remainder. -/
def fillSlotFast : List MenuItem → ℚ → Nat → List MenuItem × List MenuItem
  | [], _, _ => ([], [])
  | x :: rest, total, cnt =>
    if total < 1200 ∧ cnt < 6 then
      let p := fillSlotFast rest (total + x.calories) (cnt + 1)
      (x :: p.1, p.2)
    else ([], x :: rest)

/-- The optimized plan builder from the design notes of the spec: a single
    pre-filtered pass that always picks the highest remaining-calorie unused
    item, against which `build_plan` is compared. -/
def build_plan_fast (items : List MenuItem) : Plan :=
  let p1 := fillSlotFast (dedupByName [] (items_sorted items)) 0 0
  let p2 := fillSlotFast p1.2 0 0
  ⟨p1.1, p2.1⟩

/-- Sum of the calories of a list of items (running meal total). -/
def csum (l : List MenuItem) : ℚ := (l.map MenuItem.calories).sum

/-! ### Item extraction (lines 59-77)

    JSON records are embedded as structures whose optional fields are
    `Option` values; a missing key, a JSON `null`, and (for the
    truthiness tests in the source) falsy values are handled exactly
    as Python does. -/

/-- The `rounded_nutrition_info` record nested inside `food`. -/
structure RoundedNutritionInfo where
  calories : Option ℚ
deriving DecidableEq

/-- The `food` record nested inside a menu entry. -/
structure FoodInfo where
  name : Option String
  rounded_nutrition_info : Option RoundedNutritionInfo
deriving DecidableEq

/-- The `aggregated_data` record of a menu entry. -/
structure AggregatedData where
  calories : Option ℚ
deriving DecidableEq

/-- One element of the `menu_items` array of a day record. -/
structure MenuEntry where
  food : Option FoodInfo
  text : Option String
  aggregated_data : Option AggregatedData
deriving DecidableEq

/-- One day record of the week payload. -/
structure DayRecord where
  date : Option String
  menu_items : List MenuEntry
deriving DecidableEq

/-- The week payload: `days` or, failing that, `menu_days`. -/
structure WeekJson where
  days : Option (List DayRecord)
  menu_days : Option (List DayRecord)
deriving DecidableEq

/-- Python truthiness of an optional string: the empty string is falsy. -/
def truthyStr : Option String → Option String
  | some s => if s = "" then none else some s
  | none => none

/-- Python truthiness of an optional number: zero is falsy. -/
def truthyCal : Option ℚ → Option ℚ
  | some c => if c = 0 then none else some c
  | none => none

/-- `str.strip()`: drop whitespace from both ends.  (Python strips a slightly
    larger set of Unicode whitespace; `Char.isWhitespace` covers the ASCII
    whitespace that occurs in menu data.) -/
def stripStr (s : String) : String :=
  ⟨((s.data.dropWhile Char.isWhitespace).reverse.dropWhile
      Char.isWhitespace).reverse⟩

/-- `str.lower()`, character by character. -/
def lowerStr (s : String) : String := ⟨s.data.map Char.toLower⟩

/-- Does `needle` occur at the start of `hay`? -/
def beginsWith : List Char → List Char → Bool
  | [], _ => true
  | _ :: _, [] => false
  | c :: cs, d :: ds => c == d && beginsWith cs ds

/-- Python `needle in hay` on strings: contiguous-subsequence test. -/
def containsSeq (needle : List Char) : List Char → Bool
  | [] => needle.isEmpty
  | d :: ds => beginsWith needle (d :: ds) || containsSeq needle ds

/-- Line 69: the fixed exclusion test
    `"fish" in name.lower() or "salmon" in name.lower() or "tilapia" in name.lower()`. -/
def isExcluded (name : String) : Bool :=
  containsSeq "fish".data (lowerStr name).data ||
    containsSeq "salmon".data (lowerStr name).data ||
      containsSeq "tilapia".data (lowerStr name).data

/-- Line 67: `(food.get("name") or mi.get("text") or "Unknown").strip()`. -/
def rawName (mi : MenuEntry) : String :=
  let food := mi.food.getD ⟨none, none⟩
  stripStr
    (match truthyStr food.name with
     | some s => s
     | none =>
       match truthyStr mi.text with
       | some t => t
       | none => "Unknown")

/-- Lines 71-76: calories from `rounded_nutrition_info` if truthy, else from
    `aggregated_data` if truthy, else the fallback 250. -/
def entryCals (mi : MenuEntry) : ℚ :=
  let food := mi.food.getD ⟨none, none⟩
  let rounded := food.rounded_nutrition_info.getD ⟨none⟩
  match truthyCal rounded.calories with
  | some c => c
  | none =>
    match truthyCal (mi.aggregated_data.getD ⟨none⟩).calories with
    | some c => c
    | none => 250

/-- Lines 65-76, one menu entry: `none` when the fish filter skips it. -/
def toItem (mi : MenuEntry) : Option MenuItem :=
  let name := rawName mi
  if isExcluded name then none else some ⟨name, entryCals mi⟩

/-- Line 62: `week_json.get("days") or week_json.get("menu_days") or []`;
    note that an empty `days` list is falsy and falls through. -/
def getDays (w : WeekJson) : List DayRecord :=
  match w.days with
  | some (d :: ds) => d :: ds
  | _ =>
    match w.menu_days with
    | some l => l
    | none => []

/-- `extract_items` (lines 59-77); `today` stands for
    `datetime.date.today().strftime("%Y-%m-%d")`. -/
def extract_items (today : String) (w : WeekJson) : List MenuItem :=
  (getDays w).flatMap fun d =>
    if d.date = some today then d.menu_items.filterMap toItem else []

/-! ### The menu fetcher (lines 50-57)

    The network is a function from URL to `none` (the request raised) or
    `some (status, body)`, where `body : Option α` is the parsed JSON
    (`none` when `r.json()` would raise).  `fetch_trace` also records
    which URLs were requested, in order. -/

/-- What the `try` body of `fetch_json` yields for one candidate: the parsed
    payload when the status is 200 and the body parses, otherwise nothing
    (a raised exception is swallowed, a non-200 status just falls through). -/
def accepted {α : Type} (r : Option (Nat × Option α)) : Option α :=
  match r with
  | some (status, body) => if status = 200 then body else none
  | none => none

/-- `fetch_json` with a request log: candidates are tried in order; the first
    accepted response is returned and no later candidate is contacted;
    `none` in the second component is the final `RuntimeError`. -/
def fetch_trace {α : Type} (net : String → Option (Nat × Option α)) :
    List String → List String × Option α
  | [] => ([], none)
  | u :: rest =>
    match accepted (net u) with
    | some j => ([u], some j)
    | none =>
      let p := fetch_trace net rest
      (u :: p.1, p.2)

/-- The value `fetch_json` returns (`none` = the fatal `RuntimeError`). -/
def fetch_json {α : Type} (net : String → Option (Nat × Option α))
    (candidates : List String) : Option α :=
  (fetch_trace net candidates).2

/-! ### Readings of claim C8 about names

    `claimName` is the literal reading of the claim (use the food-name field
    whenever it is present); `claimNameAmended` additionally skips fields that
    are present but empty, which is what the Python `or` chain does; and
    `claimCals` spells out the calorie clause of the claim. -/

/-- C8 as stated: the name is the nested food-name field if present, else the
    plain text field, else "Unknown", trimmed of surrounding whitespace. -/
def claimName (mi : MenuEntry) : String :=
  match (mi.food.getD ⟨none, none⟩).name with
  | some s => stripStr s
  | none =>
    match mi.text with
    | some t => stripStr t
    | none => stripStr "Unknown"

/-- The text-field fallback of the name clause of C8, truthiness included. -/
def claimNameFallback (mi : MenuEntry) : String :=
  match mi.text with
  | some t => if t = "" then stripStr "Unknown" else stripStr t
  | none => stripStr "Unknown"

/-- C8 amended: a present-but-empty field is skipped like an absent one. -/
def claimNameAmended (mi : MenuEntry) : String :=
  match (mi.food.getD ⟨none, none⟩).name with
  | some s => if s = "" then claimNameFallback mi else stripStr s
  | none => claimNameFallback mi

/-- The aggregated-data step of the calorie clause of C8. -/
def claimCalsAgg (mi : MenuEntry) : ℚ :=
  match (mi.aggregated_data.getD ⟨none⟩).calories with
  | some a => if a ≠ 0 then a else 250
  | none => 250

/-- The calorie clause of C8: the nested rounded-nutrition calorie field is
    checked first, then the aggregated-data calorie field, and the result is
    250 whenever neither is present or neither is non-zero. -/
def claimCals (mi : MenuEntry) : ℚ :=
  match ((mi.food.getD ⟨none, none⟩).rounded_nutrition_info.getD ⟨none⟩).calories with
  | some c => if c ≠ 0 then c else claimCalsAgg mi
  | none => claimCalsAgg mi

/-! ### Concrete fixtures used by counterexamples and witnesses -/

/-- A menu entry whose food-name field is present but empty, with a plain
    text fallback: the input separating the two readings of C8. -/
def entryEmptyName : MenuEntry :=
  ⟨some ⟨some "", none⟩, some "Baked Ziti", none⟩

/-- A plain menu entry with no nutrition data at all. -/
def entryOatmeal : MenuEntry :=
  ⟨some ⟨some "Oatmeal", none⟩, none, none⟩

/-- A week payload whose single day carries the `entryOatmeal` entry under a
    fixed date. -/
def weekOatmeal : WeekJson :=
  ⟨some [⟨some "2025-01-01", [entryOatmeal]⟩], none⟩

/-- A week payload with no day matching the fixed date. -/
def weekStale : WeekJson :=
  ⟨some [⟨some "2024-12-31", [entryOatmeal]⟩], none⟩

/-- A network where the first URL answers HTTP 200 with a body that does not
    parse as JSON, and the second URL answers HTTP 200 with valid JSON. -/
def netBadJson : String → Option (Nat × Option Nat) :=
  fun u => if u = "u1" then some (200, none)
    else if u = "u2" then some (200, some 7) else none

/-- A network where the first URL raises, the second answers HTTP 404 and the
    third answers HTTP 200 with valid JSON. -/
def netThird : String → Option (Nat × Option Nat) :=
  fun u => if u = "a" then none
    else if u = "b" then some (404, some 9)
      else if u = "c" then some (200, some 5) else none

/-- A network on which every request raises. -/
def netDead : String → Option (Nat × Option Nat) := fun _ => none

/-! ### Properties of the inner scan -/

theorem fillSlot_stop (S : List MenuItem) (n : Nat) (slot : List MenuItem)
    (used : List String) (total : ℚ) (h : ¬(total < 1200 ∧ slot.length < 6)) :
    fillSlot S n slot used total = some (slot, used) := by
  cases n <;> simp [fillSlot, h]

theorem fillSlot_step (S : List MenuItem) (n : Nat) (slot : List MenuItem)
    (used : List String) (total : ℚ) (it : MenuItem)
    (hc : total < 1200 ∧ slot.length < 6) (hf : findUnused used S = some it) :
    fillSlot S (n + 1) slot used total =
      fillSlot S n (slot ++ [it]) (it.name :: used) (total + it.calories) := by
  simp [fillSlot, hc, hf]

theorem findUnused_eq_none {used : List String} {l : List MenuItem} :
    findUnused used l = none ↔ ∀ x ∈ l, x.name ∈ used := by
  induction l with
  | nil => simp [findUnused]
  | cons x xs ih => by_cases hx : x.name ∈ used <;> simp [findUnused, hx, ih]

theorem findUnused_mem {used : List String} {it : MenuItem} :
    ∀ {l : List MenuItem}, findUnused used l = some it → it ∈ l ∧ it.name ∉ used := by
  intro l
  induction l with
  | nil => intro h; simp [findUnused] at h
  | cons x xs ih =>
    intro h
    by_cases hx : x.name ∈ used
    · simp only [findUnused, if_pos hx] at h
      obtain ⟨h1, h2⟩ := ih h
      exact ⟨List.mem_cons_of_mem x h1, h2⟩
    · simp only [findUnused, if_neg hx, Option.some.injEq] at h
      subst h
      exact ⟨List.mem_cons_self x xs, hx⟩

theorem findUnused_max {used : List String} {it : MenuItem} :
    ∀ {l : List MenuItem}, List.Pairwise calGE l → findUnused used l = some it →
      ∀ x ∈ l, x.name ∉ used → x.calories ≤ it.calories := by
  intro l
  induction l with
  | nil => intro _ h; simp [findUnused] at h
  | cons y ys ih =>
    intro hp h x hx hxu
    obtain ⟨hy, hp'⟩ := List.pairwise_cons.mp hp
    by_cases hyu : y.name ∈ used
    · simp only [findUnused, if_pos hyu] at h
      rcases List.mem_cons.mp hx with rfl | hx'
      · exact absurd hyu hxu
      · exact ih hp' h x hx' hxu
    · simp only [findUnused, if_neg hyu, Option.some.injEq] at h
      subst h
      rcases List.mem_cons.mp hx with rfl | hx'
      · exact le_refl _
      · exact hy x hx'

theorem exists_unused (cs : List MenuItem) (hnd : (cs.map MenuItem.name).Nodup)
    (used : List String) (hlen : used.length < cs.length) :
    ∃ c ∈ cs, c.name ∉ used := by
  by_contra hcon
  push_neg at hcon
  have hsub : (cs.map MenuItem.name) ⊆ used := by
    intro s hs
    rcases List.mem_map.mp hs with ⟨c, hc, rfl⟩
    exact hcon c hc
  have hle := (List.subperm_of_subset hnd hsub).length_le
  simp only [List.length_map] at hle
  omega

theorem pick_lb (S : List MenuItem) (hs : List.Pairwise calGE S)
    (cs : List MenuItem) (hmem : ∀ c ∈ cs, c ∈ S)
    (hnd : (cs.map MenuItem.name).Nodup) (used : List String)
    (hlen : used.length < cs.length) (v : ℚ) (hv : ∀ c ∈ cs, v ≤ c.calories) :
    ∃ it, findUnused used S = some it ∧ v ≤ it.calories := by
  obtain ⟨c, hc, hcu⟩ := exists_unused cs hnd used hlen
  cases hfu : findUnused used S with
  | none => exact absurd (findUnused_eq_none.mp hfu c (hmem c hc)) hcu
  | some it =>
    exact ⟨it, rfl, le_trans (hv c hc) (findUnused_max hs hfu c (hmem c hc) hcu)⟩

theorem pairwise_items_sorted (items : List MenuItem) :
    List.Pairwise calGE (items_sorted items) :=
  List.sorted_insertionSort calGE (items ++ ALWAYS_AVAILABLE)

theorem mem_items_sorted_of_AA (items : List MenuItem) (a : MenuItem)
    (ha : a ∈ ALWAYS_AVAILABLE) : a ∈ items_sorted items :=
  (List.perm_insertionSort calGE (items ++ ALWAYS_AVAILABLE)).mem_iff.mpr
    (List.mem_append_right items ha)

theorem fillSlot_run (S : List MenuItem) :
    ∀ (fuel : Nat) (slot : List MenuItem) (used : List String) (total : ℚ)
      (slot' : List MenuItem) (used' : List String),
      fillSlot S fuel slot used total = some (slot', used') →
      ∃ tail, slot' = slot ++ tail ∧
        used' = (tail.map MenuItem.name).reverse ++ used ∧
        (∀ k, k < tail.length → total + csum (tail.take k) < 1200 ∧ slot.length + k < 6) ∧
        ¬(total + csum tail < 1200 ∧ slot.length + tail.length < 6) := by
  intro fuel
  induction fuel with
  | zero =>
    intro slot used total slot' used' h
    by_cases hc : total < 1200 ∧ slot.length < 6
    · simp [fillSlot, hc] at h
    · rw [fillSlot_stop S 0 slot used total hc] at h
      simp only [Option.some.injEq, Prod.mk.injEq] at h
      obtain ⟨rfl, rfl⟩ := h
      exact ⟨[], by simp, by simp, by simp, by simpa [csum] using hc⟩
  | succ n ih =>
    intro slot used total slot' used' h
    by_cases hc : total < 1200 ∧ slot.length < 6
    · cases hfu : findUnused used S with
      | none => simp [fillSlot, hc, hfu] at h
      | some it =>
        rw [fillSlot_step S n slot used total it hc hfu] at h
        obtain ⟨tail, h1, h2, h3, h4⟩ := ih _ _ _ _ _ h
        refine ⟨it :: tail, by rw [h1]; simp, by rw [h2]; simp, ?_, ?_⟩
        · intro k hk
          cases k with
          | zero => simpa [csum] using hc
          | succ m =>
            have hm := h3 m (by simpa using hk)
            constructor
            · have hcs : csum ((it :: tail).take (m + 1)) =
                  it.calories + csum (tail.take m) := by
                simp [csum]
              rw [hcs]
              linarith [hm.1]
            · have := hm.2
              simp only [List.length_append, List.length_cons, List.length_nil] at this
              omega
        · rintro ⟨ha, hb⟩
          apply h4
          constructor
          · have hcs : csum (it :: tail) = it.calories + csum tail := by simp [csum]
            rw [hcs] at ha
            linarith
          · simp only [List.length_append, List.length_cons, List.length_nil] at hb ⊢
            omega
    · rw [fillSlot_stop S (n + 1) slot used total hc] at h
      simp only [Option.some.injEq, Prod.mk.injEq] at h
      obtain ⟨rfl, rfl⟩ := h
      exact ⟨[], by simp, by simp, by simp, by simpa [csum] using hc⟩

/-! ### Termination of the fill loops

    The catalog pins down lower bounds for successive picks: with at most
    `m` names used, some item among the `m + 1` highest-calorie catalog
    entries is still unused, so the scan both succeeds and returns an item
    at least as caloric.  Hence Breakfast reaches 1200 kcal within three
    picks (600 + 500 + 400), and Dinner, starting from at most three used
    names, within four more (350 + 300 + 300 + 250). -/

theorem fill_empty_some (S : List MenuItem) (hs : List.Pairwise calGE S)
    (hAA : ∀ a ∈ ALWAYS_AVAILABLE, a ∈ S) :
    ∃ b u, fillSlot S 6 [] [] 0 = some (b, u) ∧ u.length ≤ 3 := by
  have hm1 : ∀ c ∈ [(⟨"Deli sandwich", 600⟩ : MenuItem)], c ∈ S := by
    intro c hc
    exact hAA c ((by decide : ∀ c ∈ [(⟨"Deli sandwich", 600⟩ : MenuItem)],
      c ∈ ALWAYS_AVAILABLE) c hc)
  obtain ⟨it1, hf1, hv1⟩ := pick_lb S hs _ hm1 (by decide) [] (by decide) 600 (by decide)
  have e1 := fillSlot_step S 5 [] [] 0 it1 ⟨by norm_num, by norm_num⟩ hf1
  by_cases h1 : (0 : ℚ) + it1.calories < 1200
  case neg =>
    have e2 : fillSlot S 5 ([] ++ [it1]) (it1.name :: []) (0 + it1.calories) =
        some ([] ++ [it1], it1.name :: []) :=
      fillSlot_stop S 5 _ _ _ (fun hcon => h1 hcon.1)
    exact ⟨_, _, e1.trans e2, by simp⟩
  case pos =>
    have hm2 : ∀ c ∈ [(⟨"Deli sandwich", 600⟩ : MenuItem),
        ⟨"Pasta with sauce", 500⟩], c ∈ S := by
      intro c hc
      exact hAA c ((by decide : ∀ c ∈ [(⟨"Deli sandwich", 600⟩ : MenuItem),
        ⟨"Pasta with sauce", 500⟩], c ∈ ALWAYS_AVAILABLE) c hc)
    obtain ⟨it2, hf2, hv2⟩ :=
      pick_lb S hs _ hm2 (by decide) (it1.name :: []) (by simp) 500 (by decide)
    have e2 := fillSlot_step S 4 ([] ++ [it1]) (it1.name :: []) (0 + it1.calories)
      it2 ⟨h1, by simp⟩ hf2
    by_cases h2 : 0 + it1.calories + it2.calories < 1200
    case neg =>
      have e3 : fillSlot S 4 (([] ++ [it1]) ++ [it2]) (it2.name :: it1.name :: [])
          (0 + it1.calories + it2.calories) = some _ :=
        fillSlot_stop S 4 _ _ _ (fun hcon => h2 hcon.1)
      exact ⟨_, _, e1.trans (e2.trans e3), by simp⟩
    case pos =>
      have hm3 : ∀ c ∈ [(⟨"Deli sandwich", 600⟩ : MenuItem),
          ⟨"Pasta with sauce", 500⟩, ⟨"Chicken tenders", 400⟩], c ∈ S := by
        intro c hc
        exact hAA c ((by decide : ∀ c ∈ [(⟨"Deli sandwich", 600⟩ : MenuItem),
          ⟨"Pasta with sauce", 500⟩, ⟨"Chicken tenders", 400⟩],
          c ∈ ALWAYS_AVAILABLE) c hc)
      obtain ⟨it3, hf3, hv3⟩ := pick_lb S hs _ hm3 (by decide)
        (it2.name :: it1.name :: []) (by simp) 400 (by decide)
      have e3 := fillSlot_step S 3 (([] ++ [it1]) ++ [it2])
        (it2.name :: it1.name :: []) (0 + it1.calories + it2.calories)
        it3 ⟨h2, by simp⟩ hf3
      have e4 : fillSlot S 3 ((([] ++ [it1]) ++ [it2]) ++ [it3])
          (it3.name :: it2.name :: it1.name :: [])
          (0 + it1.calories + it2.calories + it3.calories) = some _ :=
        fillSlot_stop S 3 _ _ _ (fun hcon => by linarith [hcon.1])
      exact ⟨_, _, e1.trans (e2.trans (e3.trans e4)), by simp⟩

theorem fill_carry_some (S : List MenuItem) (hs : List.Pairwise calGE S)
    (hAA : ∀ a ∈ ALWAYS_AVAILABLE, a ∈ S) (u0 : List String)
    (hu0 : u0.length ≤ 3) : ∃ d u, fillSlot S 6 [] u0 0 = some (d, u) := by
  have hm4 : ∀ c ∈ [(⟨"Deli sandwich", 600⟩ : MenuItem), ⟨"Pasta with sauce", 500⟩,
      ⟨"Chicken tenders", 400⟩, ⟨"Pizza", 350⟩], c ∈ S := by
    intro c hc
    exact hAA c ((by decide : ∀ c ∈ [(⟨"Deli sandwich", 600⟩ : MenuItem),
      ⟨"Pasta with sauce", 500⟩, ⟨"Chicken tenders", 400⟩, ⟨"Pizza", 350⟩],
      c ∈ ALWAYS_AVAILABLE) c hc)
  obtain ⟨it1, hf1, hv1⟩ := pick_lb S hs _ hm4 (by decide) u0 (by simp; omega)
    350 (by decide)
  have e1 := fillSlot_step S 5 [] u0 0 it1 ⟨by norm_num, by norm_num⟩ hf1
  by_cases h1 : (0 : ℚ) + it1.calories < 1200
  case neg =>
    exact ⟨_, _, e1.trans (fillSlot_stop S 5 _ _ _ (fun hcon => h1 hcon.1))⟩
  case pos =>
    have hm5 : ∀ c ∈ [(⟨"Deli sandwich", 600⟩ : MenuItem), ⟨"Pasta with sauce", 500⟩,
        ⟨"Chicken tenders", 400⟩, ⟨"Pizza", 350⟩, ⟨"Salad bar", 300⟩], c ∈ S := by
      intro c hc
      exact hAA c ((by decide : ∀ c ∈ [(⟨"Deli sandwich", 600⟩ : MenuItem),
        ⟨"Pasta with sauce", 500⟩, ⟨"Chicken tenders", 400⟩, ⟨"Pizza", 350⟩,
        ⟨"Salad bar", 300⟩], c ∈ ALWAYS_AVAILABLE) c hc)
    obtain ⟨it2, hf2, hv2⟩ := pick_lb S hs _ hm5 (by decide) (it1.name :: u0)
      (by simp; omega) 300 (by decide)
    have e2 := fillSlot_step S 4 ([] ++ [it1]) (it1.name :: u0)
      (0 + it1.calories) it2 ⟨h1, by simp⟩ hf2
    by_cases h2 : 0 + it1.calories + it2.calories < 1200
    case neg =>
      exact ⟨_, _, e1.trans (e2.trans
        (fillSlot_stop S 4 _ _ _ (fun hcon => h2 hcon.1)))⟩
    case pos =>
      have hm6 : ∀ c ∈ [(⟨"Deli sandwich", 600⟩ : MenuItem),
          ⟨"Pasta with sauce", 500⟩, ⟨"Chicken tenders", 400⟩, ⟨"Pizza", 350⟩,
          ⟨"Salad bar", 300⟩, ⟨"French fries", 300⟩], c ∈ S := by
        intro c hc
        exact hAA c ((by decide : ∀ c ∈ [(⟨"Deli sandwich", 600⟩ : MenuItem),
          ⟨"Pasta with sauce", 500⟩, ⟨"Chicken tenders", 400⟩, ⟨"Pizza", 350⟩,
          ⟨"Salad bar", 300⟩, ⟨"French fries", 300⟩], c ∈ ALWAYS_AVAILABLE) c hc)
      obtain ⟨it3, hf3, hv3⟩ := pick_lb S hs _ hm6 (by decide)
        (it2.name :: it1.name :: u0) (by simp; omega) 300 (by decide)
      have e3 := fillSlot_step S 3 (([] ++ [it1]) ++ [it2])
        (it2.name :: it1.name :: u0) (0 + it1.calories + it2.calories)
        it3 ⟨h2, by simp⟩ hf3
      by_cases h3 : 0 + it1.calories + it2.calories + it3.calories < 1200
      case neg =>
        exact ⟨_, _, e1.trans (e2.trans (e3.trans
          (fillSlot_stop S 3 _ _ _ (fun hcon => h3 hcon.1))))⟩
      case pos =>
        have hm7 : ∀ c ∈ [(⟨"Deli sandwich", 600⟩ : MenuItem),
            ⟨"Pasta with sauce", 500⟩, ⟨"Chicken tenders", 400⟩, ⟨"Pizza", 350⟩,
            ⟨"Salad bar", 300⟩, ⟨"French fries", 300⟩, ⟨"Grilled chicken", 250⟩],
            c ∈ S := by
          intro c hc
          exact hAA c ((by decide : ∀ c ∈ [(⟨"Deli sandwich", 600⟩ : MenuItem),
            ⟨"Pasta with sauce", 500⟩, ⟨"Chicken tenders", 400⟩, ⟨"Pizza", 350⟩,
            ⟨"Salad bar", 300⟩, ⟨"French fries", 300⟩, ⟨"Grilled chicken", 250⟩],
            c ∈ ALWAYS_AVAILABLE) c hc)
        obtain ⟨it4, hf4, hv4⟩ := pick_lb S hs _ hm7 (by decide)
          (it3.name :: it2.name :: it1.name :: u0) (by simp; omega) 250 (by decide)
        have e4 := fillSlot_step S 2 ((([] ++ [it1]) ++ [it2]) ++ [it3])
          (it3.name :: it2.name :: it1.name :: u0)
          (0 + it1.calories + it2.calories + it3.calories) it4 ⟨h3, by simp⟩ hf4
        have e5 : fillSlot S 2 (((([] ++ [it1]) ++ [it2]) ++ [it3]) ++ [it4])
            (it4.name :: it3.name :: it2.name :: it1.name :: u0)
            (0 + it1.calories + it2.calories + it3.calories + it4.calories) =
            some _ :=
          fillSlot_stop S 2 _ _ _ (fun hcon => by linarith [hcon.1])
        exact ⟨_, _, e1.trans (e2.trans (e3.trans (e4.trans e5)))⟩

/-! ### The pre-filtered single pass simulates the repeated rescans -/

theorem dedup_sublist (l : List MenuItem) :
    ∀ seen, List.Sublist (dedupByName seen l) l := by
  induction l with
  | nil => intro seen; simp [dedupByName]
  | cons x xs ih =>
    intro seen
    by_cases hx : x.name ∈ seen
    · simp only [dedupByName, if_pos hx]
      exact (ih seen).cons x
    · simp only [dedupByName, if_neg hx]
      exact (ih (x.name :: seen)).cons₂ x

theorem dedup_names (l : List MenuItem) :
    ∀ seen, ((dedupByName seen l).map MenuItem.name).Nodup ∧
      ∀ s ∈ (dedupByName seen l).map MenuItem.name, s ∉ seen := by
  induction l with
  | nil => intro seen; simp [dedupByName]
  | cons x xs ih =>
    intro seen
    by_cases hx : x.name ∈ seen
    · simpa only [dedupByName, if_pos hx] using ih seen
    · obtain ⟨hnd, hout⟩ := ih (x.name :: seen)
      simp only [dedupByName, if_neg hx, List.map_cons, List.nodup_cons]
      refine ⟨⟨fun hmem => ?_, hnd⟩, ?_⟩
      · exact hout x.name hmem (List.mem_cons_self _ _)
      · intro s hs
        rcases List.mem_cons.mp hs with rfl | hs'
        · exact hx
        · exact fun hseen => hout s hs' (List.mem_cons_of_mem _ hseen)

theorem findUnused_dedup (used : List String) (l : List MenuItem) :
    ∀ seen, (∀ s ∈ seen, s ∈ used) →
      findUnused used (dedupByName seen l) = findUnused used l := by
  induction l with
  | nil => intro seen _; simp [dedupByName]
  | cons x xs ih =>
    intro seen hseen
    by_cases hx : x.name ∈ seen
    · have hxu : x.name ∈ used := hseen x.name hx
      simp only [dedupByName, if_pos hx, findUnused, if_pos hxu]
      exact ih seen hseen
    · by_cases hxu : x.name ∈ used
      · simp only [dedupByName, if_neg hx, findUnused, if_pos hxu]
        refine ih (x.name :: seen) ?_
        intro s hs
        rcases List.mem_cons.mp hs with rfl | hs'
        · exact hxu
        · exact hseen s hs'
      · simp only [dedupByName, if_neg hx, findUnused, if_neg hxu]

theorem findUnused_take (D : List MenuItem) :
    ∀ (j : Nat) (used : List String), (D.map MenuItem.name).Nodup →
      (∀ s ∈ D.map MenuItem.name, (s ∈ used ↔ s ∈ (D.take j).map MenuItem.name)) →
      findUnused used D = (D.drop j).head? := by
  induction D with
  | nil => intro j used _ _; simp [findUnused]
  | cons x xs ih =>
    intro j used hnd hused
    cases j with
    | zero =>
      have hx : x.name ∉ used := by
        intro hmem
        have := (hused x.name (by simp)).mp hmem
        simp at this
      simp [findUnused, hx]
    | succ k =>
      have hx : x.name ∈ used := by
        refine (hused x.name (by simp)).mpr ?_
        simp [List.take_succ_cons]
      have hnd2 : (∀ y ∈ xs, ¬y.name = x.name) ∧
          (xs.map MenuItem.name).Nodup := by simpa using hnd
      have hused' : ∀ s ∈ xs.map MenuItem.name,
          (s ∈ used ↔ s ∈ (xs.take k).map MenuItem.name) := by
        intro s hs
        have hsx : s ≠ x.name := by
          rcases List.mem_map.mp hs with ⟨y, hy, rfl⟩
          exact fun he => hnd2.1 y hy he
        have hcs := hused s (by simp [hs])
        simpa [List.take_succ_cons, hsx] using hcs
      simp only [findUnused, if_pos hx, List.drop_succ_cons]
      exact ih k used hnd2.2 hused'

theorem fillSlotFast_append (rem : List MenuItem) :
    ∀ (total : ℚ) (cnt : Nat),
      rem = (fillSlotFast rem total cnt).1 ++ (fillSlotFast rem total cnt).2 := by
  induction rem with
  | nil => intro t c; simp [fillSlotFast]
  | cons x rest ih =>
    intro t c
    by_cases hc : t < 1200 ∧ c < 6
    · simp only [fillSlotFast, if_pos hc, List.cons_append, List.cons.injEq,
        true_and]
      exact ih _ _
    · simp [fillSlotFast, hc]

theorem fillSlotFast_stop (rem : List MenuItem) (total : ℚ) (cnt : Nat)
    (h : ¬(total < 1200 ∧ cnt < 6)) : fillSlotFast rem total cnt = ([], rem) := by
  cases rem <;> simp [fillSlotFast, h]

theorem fillSlot_sim (S : List MenuItem) :
    ∀ (fuel j : Nat) (slot : List MenuItem) (used : List String) (total : ℚ)
      (slot' : List MenuItem) (used' : List String),
      fillSlot S fuel slot used total = some (slot', used') →
      (∀ s ∈ (dedupByName [] S).map MenuItem.name,
        (s ∈ used ↔ s ∈ ((dedupByName [] S).take j).map MenuItem.name)) →
      ∃ j' tail,
        fillSlotFast ((dedupByName [] S).drop j) total slot.length =
          (tail, (dedupByName [] S).drop j') ∧
        slot' = slot ++ tail ∧
        (∀ s ∈ (dedupByName [] S).map MenuItem.name,
          (s ∈ used' ↔ s ∈ ((dedupByName [] S).take j').map MenuItem.name)) := by
  intro fuel
  induction fuel with
  | zero =>
    intro j slot used total slot' used' h hused
    by_cases hc : total < 1200 ∧ slot.length < 6
    · simp [fillSlot, hc] at h
    · rw [fillSlot_stop S 0 slot used total hc] at h
      simp only [Option.some.injEq, Prod.mk.injEq] at h
      obtain ⟨rfl, rfl⟩ := h
      exact ⟨j, [], fillSlotFast_stop _ _ _ hc, by simp, hused⟩
  | succ n ih =>
    intro j slot used total slot' used' h hused
    by_cases hc : total < 1200 ∧ slot.length < 6
    · cases hfu : findUnused used S with
      | none => simp [fillSlot, hc, hfu] at h
      | some it =>
        have hfD : findUnused used (dedupByName [] S) = some it := by
          rw [findUnused_dedup used S [] (by simp)]
          exact hfu
        have hdnd := (dedup_names S []).1
        have hhead : ((dedupByName [] S).drop j).head? = some it := by
          rw [← findUnused_take (dedupByName [] S) j used hdnd hused]
          exact hfD
        have hdrop : (dedupByName [] S).drop j =
            it :: (dedupByName [] S).drop (j + 1) := by
          have h1 : ((dedupByName [] S).drop j).tail =
              (dedupByName [] S).drop (j + 1) := List.tail_drop _ _
          cases hD : (dedupByName [] S).drop j with
          | nil => rw [hD] at hhead; simp at hhead
          | cons y ys =>
            rw [hD] at hhead h1
            simp only [List.head?_cons, Option.some.injEq] at hhead
            simp only [List.tail_cons] at h1
            rw [hhead, h1]
        have htake : (dedupByName [] S).take (j + 1) =
            (dedupByName [] S).take j ++ [it] := by
          have hj : (dedupByName [] S)[j]? = some it := by
            rw [← List.head?_drop]
            exact hhead
          simp [List.take_succ, hj]
        rw [fillSlot_step S n slot used total it hc hfu] at h
        have hused' : ∀ s ∈ (dedupByName [] S).map MenuItem.name,
            (s ∈ it.name :: used ↔
              s ∈ ((dedupByName [] S).take (j + 1)).map MenuItem.name) := by
          intro s hs
          have hiff := hused s hs
          simp only [htake, List.map_append, List.mem_append, List.mem_cons,
            hiff, List.map_cons, List.map_nil, List.mem_singleton]
          tauto
        obtain ⟨j', tail, hfast, hslot, hinv⟩ :=
          ih (j + 1) (slot ++ [it]) (it.name :: used) (total + it.calories)
            slot' used' h hused'
        refine ⟨j', it :: tail, ?_, by rw [hslot]; simp, hinv⟩
        rw [hdrop]
        simp only [fillSlotFast, if_pos hc]
        rw [show (slot ++ [it]).length = slot.length + 1 by simp] at hfast
        rw [hfast]
    · rw [fillSlot_stop S (n + 1) slot used total hc] at h
      simp only [Option.some.injEq, Prod.mk.injEq] at h
      obtain ⟨rfl, rfl⟩ := h
      exact ⟨j, [], fillSlotFast_stop _ _ _ hc, by simp, hused⟩

/-! ### The master run description of `build_plan` -/

theorem build_plan_master (items : List MenuItem) :
    ∃ b d rest, build_plan items = some ⟨b, d⟩ ∧ build_plan_fast items = ⟨b, d⟩ ∧
      dedupByName [] (items_sorted items) = (b ++ d) ++ rest ∧
      1 ≤ b.length ∧ 1 ≤ d.length ∧
      (∀ k, k < b.length → csum (b.take k) < 1200 ∧ k < 6) ∧
      (∀ k, k < d.length → csum (d.take k) < 1200 ∧ k < 6) := by
  have hs := pairwise_items_sorted items
  have hAA : ∀ a ∈ ALWAYS_AVAILABLE, a ∈ items_sorted items :=
    fun a ha => mem_items_sorted_of_AA items a ha
  obtain ⟨b, u1, hb, hu1⟩ := fill_empty_some _ hs hAA
  obtain ⟨d, u2, hd⟩ := fill_carry_some _ hs hAA u1 hu1
  have hbp : build_plan items = some ⟨b, d⟩ := by
    simp [build_plan, hb, hd]
  obtain ⟨j1, tb, hfast1, hslot1, hinv1⟩ :=
    fillSlot_sim _ 6 0 [] [] 0 b u1 hb (by simp)
  obtain ⟨j2, td, hfast2, hslot2, hinv2⟩ :=
    fillSlot_sim _ 6 j1 [] u1 0 d u2 hd hinv1
  simp only [List.nil_append] at hslot1 hslot2
  subst hslot1
  subst hslot2
  simp only [List.drop_zero, List.length_nil] at hfast1 hfast2
  have hfp : build_plan_fast items = ⟨b, d⟩ := by
    simp only [build_plan_fast, hfast1, hfast2]
  have hpre : dedupByName [] (items_sorted items) =
      (b ++ d) ++ (dedupByName [] (items_sorted items)).drop j2 := by
    have h1 := fillSlotFast_append (dedupByName [] (items_sorted items)) 0 0
    rw [hfast1] at h1
    have h2 := fillSlotFast_append
      ((dedupByName [] (items_sorted items)).drop j1) 0 0
    rw [hfast2] at h2
    simp only at h1 h2
    conv_lhs => rw [h1, h2]
    rw [List.append_assoc]
  obtain ⟨tailb, htb, _, hkb, hfinb⟩ := fillSlot_run _ 6 [] [] 0 b u1 hb
  obtain ⟨taild, htd, _, hkd, hfind⟩ := fillSlot_run _ 6 [] u1 0 d u2 hd
  simp only [List.nil_append] at htb htd
  subst htb
  subst htd
  have hbne : 1 ≤ b.length := by
    by_contra hcon
    push_neg at hcon
    have hnil : b = [] := List.length_eq_zero.mp (by omega)
    rw [hnil] at hfinb
    exact hfinb ⟨by norm_num [csum], by norm_num⟩
  have hdne : 1 ≤ d.length := by
    by_contra hcon
    push_neg at hcon
    have hnil : d = [] := List.length_eq_zero.mp (by omega)
    rw [hnil] at hfind
    exact hfind ⟨by norm_num [csum], by norm_num⟩
  refine ⟨b, d, _, hbp, hfp, hpre, hbne, hdne, ?_, ?_⟩
  · intro k hk
    have := hkb k hk
    simpa using this
  · intro k hk
    have := hkd k hk
    simpa using this

/-! ### Stability of the sort -/

theorem filter_orderedInsert (q : ℚ) (x : MenuItem) (l : List MenuItem) :
    (List.orderedInsert calGE x l).filter (fun y => decide (y.calories = q)) =
      (x :: l).filter (fun y => decide (y.calories = q)) := by
  induction l with
  | nil => simp [List.orderedInsert]
  | cons y ys ih =>
    by_cases hr : calGE x y
    · simp [List.orderedInsert, hr]
    · have hlt : x.calories < y.calories := not_le.mp hr
      simp only [List.orderedInsert, if_neg hr]
      by_cases hy : y.calories = q
      · have hx : ¬x.calories = q := by
          intro hxq
          rw [hxq, hy] at hlt
          exact lt_irrefl q hlt
        simp [List.filter_cons, hy, hx, ih]
      · simp [List.filter_cons, hy, ih]

theorem filter_insertionSort (q : ℚ) (l : List MenuItem) :
    (List.insertionSort calGE l).filter (fun y => decide (y.calories = q)) =
      l.filter (fun y => decide (y.calories = q)) := by
  induction l with
  | nil => rfl
  | cons x xs ih =>
    rw [List.insertionSort, filter_orderedInsert]
    simp [List.filter_cons, ih]

/-! ### Extraction lemmas -/

theorem flatMap_if_eq_filter (l : List DayRecord) (today : String)
    (f : DayRecord → List MenuItem) :
    (l.flatMap fun d => if d.date = some today then f d else []) =
      (l.filter fun d => decide (d.date = some today)).flatMap f := by
  induction l with
  | nil => rfl
  | cons d ds ih =>
    by_cases hd : d.date = some today <;>
      simp [List.filter_cons, hd, ih]

theorem rawName_eq_claimNameAmended (mi : MenuEntry) :
    rawName mi = claimNameAmended mi := by
  rcases mi with ⟨food, text, agg⟩
  rcases food with _ | ⟨fname, rni⟩
  · rcases text with _ | t
    · rfl
    · by_cases ht : t = "" <;>
        simp [rawName, claimNameAmended, claimNameFallback, truthyStr, ht]
  · rcases fname with _ | s
    · rcases text with _ | t
      · rfl
      · by_cases ht : t = "" <;>
          simp [rawName, claimNameAmended, claimNameFallback, truthyStr, ht]
    · rcases text with _ | t
      · by_cases hs : s = "" <;>
          simp [rawName, claimNameAmended, claimNameFallback, truthyStr, hs]
      · by_cases hs : s = "" <;> by_cases ht : t = "" <;>
          simp [rawName, claimNameAmended, claimNameFallback, truthyStr, hs, ht]

theorem entryCals_eq_claimCals (mi : MenuEntry) : entryCals mi = claimCals mi := by
  rcases mi with ⟨food, text, agg⟩
  have hagg : ∀ (r : Option ℚ),
      (match truthyCal r with
       | some c => c
       | none => (250 : ℚ)) =
      (match r with
       | some a => if a ≠ 0 then a else (250 : ℚ)
       | none => (250 : ℚ)) := by
    intro r
    rcases r with _ | a
    · rfl
    · by_cases ha : a = 0 <;> simp [truthyCal, ha]
  rcases food with _ | ⟨fname, rni⟩
  · simp only [entryCals, claimCals, claimCalsAgg, Option.getD]
    exact hagg _
  · rcases rni with _ | ⟨rc⟩
    · simp only [entryCals, claimCals, claimCalsAgg, Option.getD]
      exact hagg _
    · rcases rc with _ | c
      · simp only [entryCals, claimCals, claimCalsAgg, Option.getD, truthyCal]
        exact hagg _
      · by_cases hc : c = 0
        · simp only [entryCals, claimCals, claimCalsAgg, Option.getD, truthyCal,
            if_pos hc, hc, ne_eq, not_true_eq_false, if_false]
          exact hagg _
        · simp [entryCals, claimCals, truthyCal, hc]

/-! ### Fetcher lemmas -/

theorem fetch_trace_all_fail {α : Type} (net : String → Option (Nat × Option α)) :
    ∀ cands, (∀ v ∈ cands, accepted (net v) = none) →
      fetch_trace net cands = (cands, none) := by
  intro cands
  induction cands with
  | nil => intro _; rfl
  | cons u rest ih =>
    intro h
    have hu := h u (List.mem_cons_self u rest)
    have hr := ih fun v hv => h v (List.mem_cons_of_mem u hv)
    simp [fetch_trace, hu, hr]

theorem fetch_trace_first_success {α : Type}
    (net : String → Option (Nat × Option α)) :
    ∀ (pre : List String) (u : String) (post : List String) (j : α),
      (∀ v ∈ pre, accepted (net v) = none) → accepted (net u) = some j →
        fetch_trace net (pre ++ u :: post) = (pre ++ [u], some j) := by
  intro pre
  induction pre with
  | nil =>
    intro u post j _ hu
    simp [fetch_trace, hu]
  | cons v vs ih =>
    intro u post j h hu
    have hv := h v (List.mem_cons_self v vs)
    have hr := ih u post j (fun x hx => h x (List.mem_cons_of_mem v hx)) hu
    simp [fetch_trace, hv, hr]

theorem fetch_trace_none_iff {α : Type} (net : String → Option (Nat × Option α)) :
    ∀ cands, (fetch_trace net cands).2 = none ↔
      ∀ v ∈ cands, accepted (net v) = none := by
  intro cands
  induction cands with
  | nil => simp [fetch_trace]
  | cons u rest ih =>
    cases hacc : accepted (net u) with
    | none => simp [fetch_trace, hacc, ih, List.forall_mem_cons]
    | some j => simp [fetch_trace, hacc, List.forall_mem_cons]

theorem filter_today_nil (today : String) :
    ∀ l : List DayRecord, (∀ d ∈ l, ¬d.date = some today) →
      (l.filter fun d => decide (d.date = some today)) = [] := by
  intro l
  induction l with
  | nil => intro _; rfl
  | cons a L ih =>
    intro h
    have ha := h a (List.mem_cons_self a L)
    simp [List.filter_cons, ha, ih fun d hd => h d (List.mem_cons_of_mem a hd)]

/-! ### The claims -/

/-- C1: the Plan Builder terminates on every finite input item list — the
    fill loops never reach a state where the scan finds no unused item while
    the stop condition of the slot is unmet, because the eight-name catalog
    appended before sorting always leaves an unused item in reach; so the
    fuel-faithful embedding always returns a plan. -/
theorem build_plan_terminates :
    ∀ items : List MenuItem, (build_plan items).isSome = true := by
  intro items
  obtain ⟨b, d, rest, h1, -, -, -, -, -, -⟩ := build_plan_master items
  rw [h1]
  rfl

/-- C2: each of the two slots of the returned Plan holds between 1 and 6
    items, and an item is only ever appended to a slot while the running
    total of the items before it is below 1200 kcal and the slot holds
    fewer than six items. -/
theorem build_plan_slot_bounds :
    ∀ items : List MenuItem, ∃ b d, build_plan items = some ⟨b, d⟩ ∧
      (1 ≤ b.length ∧ b.length ≤ 6) ∧ (1 ≤ d.length ∧ d.length ≤ 6) ∧
      (∀ k, k < b.length → csum (b.take k) < 1200 ∧ k < 6) ∧
      (∀ k, k < d.length → csum (d.take k) < 1200 ∧ k < 6) := by
  intro items
  obtain ⟨b, d, rest, h1, -, -, hb1, hd1, hkb, hkd⟩ := build_plan_master items
  refine ⟨b, d, h1, ⟨hb1, ?_⟩, ⟨hd1, ?_⟩, hkb, hkd⟩
  · have := (hkb (b.length - 1) (by omega)).2
    omega
  · have := (hkd (d.length - 1) (by omega)).2
    omega

/-- Witness for C2 at the empty extracted-item list. -/
theorem build_plan_slot_bounds_witness :
    ∃ b d, build_plan [] = some ⟨b, d⟩ ∧
      (1 ≤ b.length ∧ b.length ≤ 6) ∧ (1 ≤ d.length ∧ d.length ≤ 6) ∧
      (∀ k, k < b.length → csum (b.take k) < 1200 ∧ k < 6) ∧
      (∀ k, k < d.length → csum (d.take k) < 1200 ∧ k < 6) :=
  build_plan_slot_bounds []

/-- C3: no item name appears more than once across both slots combined. -/
theorem build_plan_names_unique :
    ∀ items : List MenuItem, ∃ b d, build_plan items = some ⟨b, d⟩ ∧
      ((b ++ d).map MenuItem.name).Nodup := by
  intro items
  obtain ⟨b, d, rest, h1, -, hpre, -, -, -, -⟩ := build_plan_master items
  refine ⟨b, d, h1, ?_⟩
  have hnd := (dedup_names (items_sorted items) []).1
  rw [hpre] at hnd
  exact hnd.sublist ((List.sublist_append_left (b ++ d) rest).map MenuItem.name)

/-- Witness for C3 at the empty extracted-item list. -/
theorem build_plan_names_unique_witness :
    ∃ b d, build_plan [] = some ⟨b, d⟩ ∧ ((b ++ d).map MenuItem.name).Nodup :=
  build_plan_names_unique []

/-- C5: the sequence the Plan Builder sorts is the extracted items with the
    whole 8-item catalog appended, the sorted sequence has non-increasing
    calories, and the sort is stable: items of any fixed calorie value keep
    their original relative order. -/
theorem items_sorted_spec :
    ∀ items : List MenuItem,
      List.Perm (items_sorted items) (items ++ ALWAYS_AVAILABLE) ∧
      List.Pairwise calGE (items_sorted items) ∧
      (∀ q : ℚ, (items_sorted items).filter (fun y => decide (y.calories = q)) =
        (items ++ ALWAYS_AVAILABLE).filter (fun y => decide (y.calories = q))) ∧
      ALWAYS_AVAILABLE.length = 8 :=
  fun items =>
    ⟨List.perm_insertionSort calGE (items ++ ALWAYS_AVAILABLE),
     pairwise_items_sorted items,
     fun q => filter_insertionSort q (items ++ ALWAYS_AVAILABLE), rfl⟩

/-- C7: the repeated full-rescan greedy selection of `build_plan` computes
    exactly the plan of the optimized single pre-filtered pass. -/
theorem build_plan_eq_fast :
    ∀ items : List MenuItem, build_plan items = some (build_plan_fast items) := by
  intro items
  obtain ⟨b, d, rest, h1, h2, -, -, -, -, -⟩ := build_plan_master items
  rw [h1, h2]

/-- C9: every Breakfast item has at least the calories of every Dinner item. -/
theorem breakfast_ge_dinner :
    ∀ items : List MenuItem, ∃ b d, build_plan items = some ⟨b, d⟩ ∧
      ∀ x ∈ b, ∀ y ∈ d, y.calories ≤ x.calories := by
  intro items
  obtain ⟨b, d, rest, h1, -, hpre, -, -, -, -⟩ := build_plan_master items
  refine ⟨b, d, h1, ?_⟩
  have hD : List.Pairwise calGE (dedupByName [] (items_sorted items)) :=
    (pairwise_items_sorted items).sublist (dedup_sublist (items_sorted items) [])
  rw [hpre] at hD
  have hbd : List.Pairwise calGE (b ++ d) :=
    hD.sublist (List.sublist_append_left (b ++ d) rest)
  exact fun x hx y hy => (List.pairwise_append.mp hbd).2.2 x hx y hy

/-- Witness for C9 at the empty extracted-item list. -/
theorem breakfast_ge_dinner_witness :
    ∃ b d, build_plan [] = some ⟨b, d⟩ ∧
      ∀ x ∈ b, ∀ y ∈ d, y.calories ≤ x.calories :=
  breakfast_ge_dinner []

/-- C6: no item whose name contains "fish", "salmon" or "tilapia"
    case-insensitively ever appears in the extracted item list. -/
theorem extract_items_no_fish :
    ∀ (today : String) (w : WeekJson),
      ∀ it ∈ extract_items today w, isExcluded it.name = false := by
  intro today w it hmem
  simp only [extract_items] at hmem
  rcases List.mem_flatMap.mp hmem with ⟨dd, hd, hit⟩
  by_cases hdt : dd.date = some today
  · rw [if_pos hdt] at hit
    rcases List.mem_filterMap.mp hit with ⟨mi, hmi, hsome⟩
    simp only [toItem] at hsome
    by_cases hex : isExcluded (rawName mi) = true
    · rw [if_pos hex] at hsome
      exact absurd hsome (by simp)
    · rw [if_neg hex] at hsome
      obtain rfl : (⟨rawName mi, entryCals mi⟩ : MenuItem) = it :=
        Option.some.inj hsome
      simpa using hex
  · rw [if_neg hdt] at hit
    simp at hit

/-- Witness for C6 at a concrete one-day payload. -/
theorem extract_items_no_fish_witness :
    isExcluded (MenuItem.mk "Oatmeal" 250).name = false :=
  extract_items_no_fish "2025-01-01" weekOatmeal ⟨"Oatmeal", 250⟩ (by decide)

/-- C8 counterexample: for a menu entry whose food-name field is present but
    empty and whose text field is "Baked Ziti", the code produces the item
    named "Baked Ziti", not the (present) food-name field as the claim
    states. -/
theorem toItem_name_counterexample :
    toItem entryEmptyName = some ⟨"Baked Ziti", 250⟩ ∧
      claimName entryEmptyName = "" ∧ ("Baked Ziti" : String) ≠ "" :=
  ⟨by decide, by decide, by decide⟩

/-- C8 amended: calories are the first non-zero of the rounded-nutrition
    then aggregated-data fields, defaulting to 250 (a zero value also yields
    250); the name is the food-name field if present and non-empty, else the
    text field if present and non-empty, else "Unknown", trimmed. -/
theorem toItem_name_cals :
    ∀ (mi : MenuEntry) (it : MenuItem), toItem mi = some it →
      it.name = claimNameAmended mi ∧ it.calories = claimCals mi := by
  intro mi it h
  simp only [toItem] at h
  by_cases hex : isExcluded (rawName mi) = true
  · rw [if_pos hex] at h
    exact absurd h (by simp)
  · rw [if_neg hex] at h
    obtain rfl : (⟨rawName mi, entryCals mi⟩ : MenuItem) = it := Option.some.inj h
    exact ⟨rawName_eq_claimNameAmended mi, entryCals_eq_claimCals mi⟩

/-- Witness for the amended C8 at a concrete entry. -/
theorem toItem_name_cals_witness :
    (MenuItem.mk "Oatmeal" 250).name = claimNameAmended entryOatmeal ∧
      (MenuItem.mk "Oatmeal" 250).calories = claimCals entryOatmeal :=
  toItem_name_cals entryOatmeal ⟨"Oatmeal", 250⟩ (by decide)

/-- C10: extraction walks every day record whose date is today, in order,
    concatenating their extracted items, and yields the empty list when no
    record matches. -/
theorem extract_items_all_days :
    ∀ (today : String) (w : WeekJson),
      extract_items today w =
        ((getDays w).filter fun d => decide (d.date = some today)).flatMap
          (fun d => d.menu_items.filterMap toItem) ∧
      ((∀ d ∈ getDays w, ¬d.date = some today) → extract_items today w = []) := by
  intro today w
  constructor
  · exact flatMap_if_eq_filter (getDays w) today _
  · intro hno
    simp only [extract_items]
    rw [flatMap_if_eq_filter (getDays w) today
        (fun d => d.menu_items.filterMap toItem),
      filter_today_nil today (getDays w) hno]
    rfl

/-- Witness for C10 at a payload with no matching day. -/
theorem extract_items_all_days_witness :
    extract_items "2025-01-01" weekStale = [] :=
  (extract_items_all_days "2025-01-01" weekStale).2 (by decide)

/-- C4 counterexample: the first candidate answers HTTP 200 (with a body
    that does not parse), yet the fetcher still issues a request to the next
    candidate and returns its payload — refuting the claim that the first
    HTTP-200 candidate is returned with no request to any later one. -/
theorem fetch_json_counterexample :
    netBadJson "u1" = some (200, none) ∧
      fetch_trace netBadJson ["u1", "u2"] = (["u1", "u2"], some 7) ∧
      "u2" ∈ (fetch_trace netBadJson ["u1", "u2"]).1 :=
  ⟨by decide, by decide, by decide⟩

/-- C4 amended: candidates are tried in order and the first one that
    answers HTTP 200 with a parseable body is returned, with no request to
    any later candidate; a network error, a non-success status, or an
    unparseable 200 body is swallowed and the next candidate is tried; and
    the fetch fails iff every candidate fails in this sense, including the
    empty candidate list. -/
theorem fetch_json_first_success :
    (∀ (α : Type) (net : String → Option (Nat × Option α)) (pre : List String)
      (u : String) (post : List String) (j : α),
      (∀ v ∈ pre, accepted (net v) = none) → accepted (net u) = some j →
        fetch_trace net (pre ++ u :: post) = (pre ++ [u], some j)) ∧
    (∀ (α : Type) (net : String → Option (Nat × Option α)) (cands : List String),
      (∀ v ∈ cands, accepted (net v) = none) →
        fetch_trace net cands = (cands, none)) ∧
    (∀ (α : Type) (net : String → Option (Nat × Option α)) (cands : List String),
      fetch_json net cands = none ↔ ∀ v ∈ cands, accepted (net v) = none) :=
  ⟨fun _ net pre u post j h1 h2 => fetch_trace_first_success net pre u post j h1 h2,
   fun _ net cands h => fetch_trace_all_fail net cands h,
   fun _ net cands => fetch_trace_none_iff net cands⟩

/-- Witness for the amended C4 at concrete networks. -/
theorem fetch_json_first_success_witness :
    fetch_trace netThird ["a", "b", "c"] = (["a", "b", "c"], some 5) ∧
      fetch_trace netDead ["a", "b"] = (["a", "b"], none) :=
  ⟨fetch_json_first_success.1 Nat netThird ["a", "b"] "c" [] 5
      (by decide) (by decide),
   fetch_json_first_success.2.1 Nat netDead ["a", "b"] (by decide)⟩
